import Mathlib

/-!
Verification development for the MEDGraph medical-institutions extraction
pipeline. The Python sources under src/medical_institutions are shallowly
embedded as executable Lean definitions: pure record cleaning becomes pure
functions on a typed record; the PostgreSQL institutions table (as created by
setup_db.create_tables) becomes a list of rows plus a serial id counter;
the retrying HTTP fetch layer becomes a recursion over the remaining attempt
budget with an oracle for the per-attempt responses; exceptions become
Except values.
-/

namespace MEDGraph

/-! ## String helpers mirroring the Python string operations -/

/-- Model of Python str.strip on the front side: drop leading whitespace.
Shared helper for pyStrip. -/
def dropLeadWs (l : List Char) : List Char :=
  l.dropWhile Char.isWhitespace

/-- Drop trailing whitespace: reverse, drop leading, reverse. -/
def dropTrailWs (l : List Char) : List Char :=
  (l.reverse.dropWhile Char.isWhitespace).reverse

/-- Model of Python str.strip(): remove leading and trailing whitespace. -/
def pyStripL (l : List Char) : List Char :=
  dropTrailWs (dropLeadWs l)

/-- Model of Python str.strip() on String. -/
def pyStrip (s : String) : String :=
  ⟨pyStripL s.data⟩

/-- Model of re.sub with the whitespace-run pattern replaced by a single
space, as used in USAExtractor.normalize (usa.py line 609). The flag records
whether the previous character belonged to a whitespace run that has already
emitted its replacement space. -/
def collapseWsAux : Bool → List Char → List Char
  | _, [] => []
  | prevWs, c :: rest =>
    if c.isWhitespace then
      if prevWs then collapseWsAux true rest
      else ' ' :: collapseWsAux true rest
    else c :: collapseWsAux false rest

/-- Model of re.sub of one-or-more whitespace to a single space. -/
def collapseWs (s : String) : String :=
  ⟨collapseWsAux false s.data⟩

/-- The USA name cleaning (usa.py lines 607-611): collapse whitespace runs,
then strip. -/
def usaNameClean (s : String) : String :=
  pyStrip (collapseWs s)

/-- Model of re.sub removing every occurrence of the literal bracket-edit
tag (ind.py line 407, chn.py line 248), scanning left to right and
continuing after each removed match, exactly as re.sub does. Structured with
an explicit fuel argument (always called with fuel at least the list length,
and each step consumes at least one character) so that the kernel can
evaluate it. -/
def removeEditTagFuel : Nat → List Char → List Char
  | 0, l => l
  | _ + 1, [] => []
  | fuel + 1, '[' :: 'e' :: 'd' :: 'i' :: 't' :: ']' :: rest =>
      removeEditTagFuel fuel rest
  | fuel + 1, c :: rest => c :: removeEditTagFuel fuel rest

def removeEditTagL (l : List Char) : List Char :=
  removeEditTagFuel l.length l

/-- Model of re.sub removing every occurrence of a bracketed number
(ind.py line 408, chn.py line 249): an opening bracket, one or more digits,
a closing bracket. At each position the match succeeds exactly when the
head is an opening bracket, the following maximal digit run is nonempty,
and the next character is a closing bracket; on success scanning resumes
after the match. -/
def removeRefNumsFuel : Nat → List Char → List Char
  | 0, l => l
  | _ + 1, [] => []
  | fuel + 1, c :: rest =>
    if c = '[' then
      let ds := rest.takeWhile Char.isDigit
      if ds.isEmpty then c :: removeRefNumsFuel fuel rest
      else
        match rest.drop ds.length with
        | ']' :: after => removeRefNumsFuel fuel after
        | _ => c :: removeRefNumsFuel fuel rest
    else c :: removeRefNumsFuel fuel rest

def removeRefNumsL (l : List Char) : List Char :=
  removeRefNumsFuel l.length l

/-- The IND and CHN name cleaning (ind.py lines 404-410, chn.py lines
245-251): remove edit tags, remove bracketed reference numbers, strip. -/
def indNameClean (s : String) : String :=
  pyStrip ⟨removeRefNumsL (removeEditTagL s.data)⟩

/-! ## Scalar values and the Python float coercion -/

/-- A scalar as it can sit in a raw record coordinate field before
normalization: an integer, a float (modeled as a rational), or a string. -/
inductive Scalar where
  | i (n : Int)
  | f (q : Rat)
  | s (v : String)
  deriving DecidableEq, Repr

/-- Parse the digits of a nonempty decimal string to a natural number;
none when a non-digit occurs or the string is empty. Helper for the model
of the Python float constructor. -/
def parseDigits : List Char → Option Nat
  | [] => none
  | l => l.foldl
      (fun acc c => match acc with
        | none => none
        | some n => if c.isDigit then some (n * 10 + (c.toNat - 48)) else none)
      (some 0)

/-- Model of the Python float constructor applied to a plain decimal string
literal with an optional sign and an optional fractional part (the only
string shapes the coordinate fields of this pipeline carry); none models
the ValueError branch. -/
def parseFloatString (s : String) : Option Rat :=
  let stripped := pyStripL s.data
  let (sign, body) : Rat × List Char :=
    match stripped with
    | '-' :: rest => (-1, rest)
    | '+' :: rest => (1, rest)
    | l => (1, l)
  let intPart := body.takeWhile Char.isDigit
  match body.drop intPart.length with
  | [] =>
    match parseDigits intPart with
    | some n => some (sign * (n : Rat))
    | none => none
  | '.' :: fracPart =>
    if fracPart.all Char.isDigit ∧ ¬(intPart.isEmpty ∧ fracPart.isEmpty) then
      let ip := match parseDigits intPart with | some n => (n : Rat) | none => 0
      let fp := match parseDigits fracPart with | some n => (n : Rat) | none => 0
      some (sign * (ip + fp / ((10 : Rat) ^ fracPart.length)))
    else none
  | _ => none

/-- Model of float(x) for a scalar x: floats pass through, integers are
widened, strings are parsed; none models the ValueError or TypeError caught
in USAExtractor.normalize (usa.py lines 616-619). -/
def floatOfScalar : Scalar → Option Rat
  | .f q => some q
  | .i n => some (n : Rat)
  | .s v => parseFloatString v

/-- Python truthiness of an optional scalar field value, as tested by the
condition item.get(coord) in usa.py line 615: absent and zero and the empty
string are falsy. -/
def scalarOptTruthy : Option Scalar → Bool
  | none => false
  | some (.f q) => decide (q ≠ 0)
  | some (.i n) => decide (n ≠ 0)
  | some (.s v) => !v.isEmpty

/-- Python truthiness of an optional string field value: absent and the
empty string are falsy. -/
def optStrTruthy : Option String → Bool
  | none => false
  | some s => !s.isEmpty

/-! ## Raw records -/

/-- A raw record as produced by the per-source fetchers and consumed by the
per-country normalize methods and by BaseExtractor.insert_to_db. The itype
field holds the string value of the InstitutionType enum member (the value
coercion of base.py line 54). -/
structure RawItem where
  name : Option String
  itype : Option String
  state : Option String
  city : Option String
  address : Option String
  website : Option String
  latitude : Option Scalar
  longitude : Option Scalar
  attrs : List (String × String)
  deriving DecidableEq, Repr

/-! ## Per-country normalizers -/

/-- One coordinate field step of USAExtractor.normalize (usa.py lines
614-619): when the field is truthy, coerce it to float, and on coercion
failure set it to null; otherwise leave it alone. -/
def usaCoerceCoord (v : Option Scalar) : Option Scalar :=
  if scalarOptTruthy v then
    match v with
    | some sc =>
      match floatOfScalar sc with
      | some q => some (.f q)
      | none => none
    | none => none
  else v

/-- The state step of USAExtractor.normalize (usa.py lines 600-603): strip
the state when it is truthy. -/
def usaNormState (v : Option String) : Option String :=
  if optStrTruthy v then v.map pyStrip else v

/-- The name step of USAExtractor.normalize (usa.py lines 606-611):
collapse whitespace runs and strip when the name is truthy. -/
def usaNormName (v : Option String) : Option String :=
  if optStrTruthy v then v.map usaNameClean else v

/-- USAExtractor.normalize on one record (usa.py lines 596-621): strip the
state, collapse and strip the name, coerce the coordinates to numbers. The
three steps of the source loop touch disjoint fields, so their sequential
in-place mutation is this simultaneous record update. No range check is
performed on the coordinates. -/
def usaNormalizeItem (it : RawItem) : RawItem :=
  { it with
    state := usaNormState it.state
    name := usaNormName it.name
    latitude := usaCoerceCoord it.latitude
    longitude := usaCoerceCoord it.longitude }

/-- USAExtractor.normalize over a batch: the Python loop mutates each dict
in the list in place and returns the list. -/
def usaNormalize (data : List RawItem) : List RawItem :=
  data.map usaNormalizeItem

/-- CANExtractor.normalize (can.py lines 191-192) returns its input
unchanged. -/
def canNormalize (data : List RawItem) : List RawItem :=
  data

/-- The Indian state name mapping of INDExtractor.normalize (ind.py lines
382-401), with the dictionary get defaulting to the key itself. -/
def indStateMap (st : String) : String :=
  match st with
  | "Tamil Nadu" => "Tamil Nadu"
  | "TN" => "Tamil Nadu"
  | "Karnataka" => "Karnataka"
  | "KA" => "Karnataka"
  | "Maharashtra" => "Maharashtra"
  | "MH" => "Maharashtra"
  | "Gujarat" => "Gujarat"
  | "GJ" => "Gujarat"
  | "Rajasthan" => "Rajasthan"
  | "RJ" => "Rajasthan"
  | "Uttar Pradesh" => "Uttar Pradesh"
  | "UP" => "Uttar Pradesh"
  | "West Bengal" => "West Bengal"
  | "WB" => "West Bengal"
  | "Delhi" => "Delhi"
  | "NCT of Delhi" => "Delhi"
  | "New Delhi" => "Delhi"
  | other => other

/-- INDExtractor.normalize on one record (ind.py lines 375-412): map the
state through the state dictionary when truthy, and clean the name by
removing edit tags and bracketed reference numbers and stripping. -/
def indNormalizeItem (it : RawItem) : RawItem :=
  let it1 := if optStrTruthy it.state
    then { it with state := it.state.map indStateMap } else it
  if optStrTruthy it1.name
    then { it1 with name := it1.name.map indNameClean } else it1

def indNormalize (data : List RawItem) : List RawItem :=
  data.map indNormalizeItem

/-- CHNExtractor.normalize on one record (chn.py lines 238-253): the
local-name branch is a no-op, and the name is cleaned with the same edit
tag and reference number removal and strip as for IND. -/
def chnNormalizeItem (it : RawItem) : RawItem :=
  if optStrTruthy it.name
    then { it with name := it.name.map indNameClean } else it

def chnNormalize (data : List RawItem) : List RawItem :=
  data.map chnNormalizeItem

/-- The per-value latitude validation inside USAExtractor.fetch_clinics_hrsa
(usa.py lines 470-478): convert to float, and replace an out-of-range value
by null; a conversion failure leaves the coordinate unset. This is the only
place in the repository where a coordinate range check happens. -/
def hrsaLatValue (v : Scalar) : Option Rat :=
  match floatOfScalar v with
  | none => none
  | some q => if -90 ≤ q ∧ q ≤ 90 then some q else none

/-- The per-value longitude validation inside USAExtractor.fetch_clinics_hrsa
(usa.py lines 480-488). -/
def hrsaLngValue (v : Scalar) : Option Rat :=
  match floatOfScalar v with
  | none => none
  | some q => if -180 ≤ q ∧ q ≤ 180 then some q else none

/-! ## The institutions table

The schema is the one created by setup_db.create_tables (setup_db.py lines
79-100): a serial primary key, NOT NULL columns name, type and country, and
no other uniqueness constraint - in particular there is no unique constraint
on the natural key (country, name). -/

/-- A persisted institutions row. Coordinates are stored as the scalar the
insert statement was handed. -/
structure Row where
  id : Nat
  name : String
  itype : String
  country : String
  state : Option String
  city : Option String
  address : Option String
  website : Option String
  latitude : Option Scalar
  longitude : Option Scalar
  attrs : List (String × String)
  last_updated : Int
  deriving DecidableEq, Repr

/-- The table plus the next serial id. Deletions do not rewind the serial
counter. -/
structure DB where
  rows : List Row
  nextId : Nat
  deriving DecidableEq, Repr

/-- A fresh database; the serial sequence starts at one. -/
def emptyDB : DB := ⟨[], 1⟩

/-- Whether the insert statement of BaseExtractor.insert_to_db (base.py
lines 48-64) executes without raising for this record against the
setup_db schema: the NOT NULL columns name and type must be present
(country is always supplied from the extractor itself). When it raises,
the per-record except branch of base.py lines 66-68 logs and skips. -/
def insertOk (it : RawItem) : Bool :=
  it.name.isSome && it.itype.isSome

/-- The row written for a record by the insert statement of base.py lines
48-64: the country column is the extractor country, the id comes from the
serial sequence, last_updated is the insertion time. -/
def mkRow (country : String) (id : Nat) (it : RawItem) (now : Int) : Row :=
  { id := id
    name := it.name.getD ""
    itype := it.itype.getD ""
    country := country
    state := it.state
    city := it.city
    address := it.address
    website := it.website
    latitude := it.latitude
    longitude := it.longitude
    attrs := it.attrs
    last_updated := now }

/-- BaseExtractor.insert_to_db (base.py lines 43-71). Because the schema
has no unique constraint other than the serial primary key, and the serial
id of a new row is always fresh, the ON CONFLICT DO NOTHING clause never
suppresses an insert: every record whose statement does not raise is
appended. The natural number returned alongside the database is the
inserted_count value that the source increments per non-raising record and
logs at line 71; the Python method itself returns None. -/
def insertToDb (country : String) (items : List RawItem) (db : DB) (now : Int) :
    DB × Nat :=
  match items with
  | [] => (db, 0)
  | it :: rest =>
    if insertOk it then
      let db1 : DB := ⟨db.rows ++ [mkRow country db.nextId it now], db.nextId + 1⟩
      let (dbf, c) := insertToDb country rest db1 now
      (dbf, c + 1)
    else
      let (dbf, c) := insertToDb country rest db now
      (dbf, c)

/-- The string the duplicate scan of BaseExtractor.deduplicate feeds the
similarity measure for one row (base.py line 36): the name concatenated
with the address, a null address read as the empty string (line 32). -/
def simKey (r : Row) : String :=
  r.name ++ r.address.getD ""

/-- The same key computed from the raw record a row was inserted from. -/
def itemKey (it : RawItem) : String :=
  it.name.getD "" ++ it.address.getD ""

/-- Whether the pair scan of base.py lines 34-37 marks row r2 for deletion:
some row of the country with a smaller id scores strictly above 90 against
it. The similarity measure fuzz.token_sort_ratio is an external library
function; it is a parameter sim of the model. -/
def rowMarked (sim : String → String → Nat) (existing : List Row) (r2 : Row) :
    Bool :=
  existing.any fun r1 =>
    decide (r1.id < r2.id) && decide (90 < sim (simKey r1) (simKey r2))

/-- BaseExtractor.deduplicate (base.py lines 29-41): load the rows of the
extractor country, collect the higher ids of every pair scoring above 90,
and delete that id set from the table in one statement after the scan. -/
def dedupDb (sim : String → String → Nat) (country : String) (db : DB) : DB :=
  let existing := db.rows.filter fun r => r.country == country
  let duplicates := (existing.filter (rowMarked sim existing)).map Row.id
  ⟨db.rows.filter fun r => !(duplicates.contains r.id), db.nextId⟩

/-- The SQL MAX aggregate over a list of timestamps: null on an empty set. -/
def listMax : List Int → Option Int
  | [] => none
  | x :: rest =>
    match listMax rest with
    | none => some x
    | some m => some (max x m)

/-- BaseExtractor.needs_refresh (base.py lines 73-76): true when the MAX of
last_updated over the country rows is null, or now minus it exceeds the
refresh window. Time is modeled as an integer count of days, so the
timedelta of days is the integer days. -/
def needsRefresh (country : String) (days : Int) (now : Int) (db : DB) : Bool :=
  match listMax ((db.rows.filter fun r => r.country == country).map
      Row.last_updated) with
  | none => true
  | some last => decide (now - last > days)

/-! ## The orchestrated run -/

/-- The exceptions the run model distinguishes: a cursor operation on a
closed connection, and any other error such as an adapter failure. -/
inductive PyErr where
  | cursorClosed
  | other (msg : String)
  deriving DecidableEq, Repr

/-- The terminal outcome of a run that did not raise. -/
inductive RunOutcome where
  | refreshed
  | skipped
  deriving DecidableEq, Repr

/-- The observable pipeline steps of one run, in order. -/
inductive RunOp where
  | fetchOp
  | normalizeOp
  | insertOp
  | dedupOp
  deriving DecidableEq, Repr

/-- The cursor and connection state of one extractor instance. -/
structure ExtState where
  curOpen : Bool
  connOpen : Bool
  deriving DecidableEq, Repr

/-- The state BaseExtractor.close leaves behind (base.py lines 99-103). -/
def closedState : ExtState := ⟨false, false⟩

/-- What one invocation of BaseExtractor.run produces in the model. -/
structure RunResultM where
  res : Except PyErr RunOutcome
  finalSt : ExtState
  db : DB
  ops : List RunOp
  deriving Repr

/-- BaseExtractor.run (base.py lines 78-97). The freshness gate short
circuits: with force set the needs_refresh query is not executed. Every
cursor operation on a closed cursor raises; the except branch re-raises
after logging; the finally branch always closes cursor and connection. The
fetched argument is the oracle for what self.fetch_data returns or raises,
and normalizeFn is the country normalize method, a pure function. -/
def runExtractor (sim : String → String → Nat) (country : String)
    (normalizeFn : List RawItem → List RawItem)
    (fetched : Except PyErr (List RawItem)) (force : Bool) (refreshDays : Int)
    (now : Int) (st : ExtState) (db : DB) : RunResultM :=
  let gate : Except PyErr Bool :=
    if force then .ok true
    else if st.curOpen then .ok (needsRefresh country refreshDays now db)
    else .error .cursorClosed
  match gate with
  | .error e => ⟨.error e, closedState, db, []⟩
  | .ok false => ⟨.ok .skipped, closedState, db, []⟩
  | .ok true =>
    match fetched with
    | .error e => ⟨.error e, closedState, db, [.fetchOp]⟩
    | .ok data =>
      let normalized := normalizeFn data
      if st.curOpen then
        let inserted := insertToDb country normalized db now
        let db2 := dedupDb sim country inserted.1
        ⟨.ok .refreshed, closedState, db2,
          [.fetchOp, .normalizeOp, .insertOp, .dedupOp]⟩
      else ⟨.error .cursorClosed, closedState, db, [.fetchOp, .normalizeOp]⟩

/-- One ingestion pass of the pipeline after normalization: persist the
batch, then deduplicate the country, as run does at base.py lines 88-89. -/
def ingest (sim : String → String → Nat) (country : String)
    (batch : List RawItem) (db : DB) (now : Int) : DB :=
  dedupDb sim country (insertToDb country batch db now).1

/-! ## The retrying fetch layer -/

/-- A successful HTTP response; only its text matters to the model. -/
structure HttpResponse where
  text : String
  deriving DecidableEq, Repr

/-- The attempt loop of BaseExtractor.get_with_retry (base.py lines
112-121), recursing on the remaining attempt budget. The respond oracle
gives the outcome of the HTTP request of a given attempt index: none for a
RequestException (network error or non-2xx status raised by
raise_for_status), some for a success. The result triple is the returned
value, the number of attempts performed, and the list of sleep durations in
order; the condition attempt below retries minus one of line 119 is exactly
the condition that further attempts remain, so no sleep happens after the
final attempt, and the backoff doubles after each sleep (line 121). -/
def retryLoop (respond : Nat → Option HttpResponse) (attempt : Nat)
    (backoff : Nat) : Nat → Option HttpResponse × Nat × List Nat
  | 0 => (none, 0, [])
  | remaining + 1 =>
    match respond attempt with
    | some r => (some r, 1, [])
    | none =>
      if remaining = 0 then (none, 1, [])
      else
        let (res, n, sleeps) := retryLoop respond (attempt + 1) (backoff * 2)
          remaining
        (res, n + 1, backoff :: sleeps)

/-- BaseExtractor.get_with_retry (base.py lines 105-124): run the attempt
loop from attempt zero with the initial backoff factor; after exhausting
the budget the hole after the loop returns None (line 124). -/
def getWithRetry (retries backoffFactor : Nat)
    (respond : Nat → Option HttpResponse) :
    Option HttpResponse × Nat × List Nat :=
  retryLoop respond 0 backoffFactor retries

/-- The response handling shape shared by the per-source fetchers, here
USAExtractor.fetch_vet_nifa (usa.py lines 30-59): call get_with_retry with
the default budget of three attempts and backoff factor one, return the
empty list when it yields None, and otherwise parse the response. -/
def fetchVetNifa (respond : Nat → Option HttpResponse)
    (parse : HttpResponse → List RawItem) : List RawItem :=
  match (getWithRetry 3 1 respond).1 with
  | none => []
  | some r => parse r

/-- The try-except wrapper every per-source fetcher of usa.py puts around
its whole body: an internal failure is caught and converted to the empty
list (for example usa.py lines 57-59). The outcome argument is what the
body produced or raised. -/
def handleSource (outcome : Except PyErr (List RawItem)) : List RawItem :=
  match outcome with
  | .ok l => l
  | .error _ => []

/-- USAExtractor.fetch_data (usa.py lines 18-28): concatenate the outputs
of the per-source fetchers in order. The or-empty guard of each summand is
the identity on lists, since the fetchers return lists. The outcomes list
holds one entry per source fetcher, in the order fetch_data calls them. -/
def fetchDataAgg (outcomes : List (Except PyErr (List RawItem))) :
    List RawItem :=
  (outcomes.map handleSource).flatten

/-! ## The command line batch loop -/

/-- The country loop of the main entry point (main.py lines 34-41, and the
identical loop of extractors/main.py lines 24-35): process each requested
country through its registered extractor, and on the first country missing
from the registry log an error and call sys.exit(1). The result triple is
the list of countries whose extractor ran, the logged error lines, and the
exit code passed to sys.exit, none when the loop runs to completion. -/
def mainBatch (known : String → Bool) : List String →
    List String × List String × Option Nat
  | [] => ([], [], none)
  | c :: rest =>
    if known c then
      let (p, errs, e) := mainBatch known rest
      (c :: p, errs, e)
    else ([], ["Unknown country: " ++ c], some 1)

/-- The registry of extractors assembled in extractors/init (lines 9-19). -/
def registryCountries : List String := ["USA", "CAN", "CHN", "IND"]

/-- Membership in the extractor registry. -/
def registryKnown (c : String) : Bool :=
  registryCountries.contains c

/-- The validation pass of run_extraction.main (run_extraction.py lines
205-218): unknown countries are filtered out with an error log each, and
the batch then runs over every valid country; the process exits up front
only when no valid country remains. -/
def runExtractionValid (known : String → Bool) (cs : List String) :
    List String :=
  cs.filter known

/-! ## Derived notions and concrete fixtures used in the statements -/

/-- The rows a batch of insertable records produces, with serial ids
counting up from a start value: the closed form of insertToDb. -/
def rowsFrom (country : String) : List RawItem → Nat → Int → List Row
  | [], _, _ => []
  | it :: rest, s, now => mkRow country s it now :: rowsFrom country rest (s + 1) now

/-- Ids determine rows, the invariant the serial primary key provides. -/
abbrev idInj (L : List Row) : Prop :=
  ∀ a ∈ L, ∀ b ∈ L, a.id = b.id → a = b

/-- Whether a character list starts with a non-whitespace character or is
empty; the local adjacency check of the collapsed-whitespace discipline. -/
def headNotWs : List Char → Bool
  | [] => true
  | d :: _ => !d.isWhitespace

/-- The whitespace discipline of a string with all runs collapsed: every
whitespace character is a plain space and no whitespace character is
followed by another one. -/
def goodB : List Char → Bool
  | [] => true
  | c :: rest =>
    (if c.isWhitespace then (c == ' ') && headNotWs rest else true) && goodB rest

/-- The error log line of the main loop for the first unknown country. -/
def firstUnknownLog (known : String → Bool) (cs : List String) : List String :=
  match cs.dropWhile known with
  | [] => []
  | c :: _ => ["Unknown country: " ++ c]

/-- The state of a freshly constructed extractor. -/
def openState : ExtState := ⟨true, true⟩

/-- A concrete symmetric similarity measure used to instantiate the sim
parameter in witnesses: identical keys score 100, distinct keys 95. -/
def simW (a b : String) : Nat :=
  if a == b then 100 else 95

/-- A concrete similarity giving 100 on identical keys and 0 otherwise. -/
def simEq (a b : String) : Nat :=
  if a == b then 100 else 0

/-- A concrete insertable record. -/
def itA : RawItem :=
  ⟨some "Alpha Hospital", some "hospital", some "NY", some "Buffalo",
    some "12 Elm St", none, none, none, [("source", "CMS")]⟩

/-- A second concrete insertable record with a different natural key. -/
def itB : RawItem :=
  ⟨some "Beta Clinic", some "clinic", some "OH", some "Cleveland",
    some "9 Oak Ave", none, none, none, [("source", "HRSA")]⟩

/-- A raw record carrying latitude 200, outside the valid range. -/
def rec200 : RawItem :=
  ⟨some "Null Island Clinic", some "clinic", some "NY", none, none, none,
    some (.i 200), none, [("source", "HRSA")]⟩

/-- A raw record whose name regains a removable bracket tag after one
cleaning pass: removing the inner edit tag leaves a fresh edit tag. -/
def indBad : RawItem :=
  ⟨some "[ed[edit]it]", some "medical_school", none, none, none, none,
    none, none, [("source", "Wikipedia")]⟩

/-- A two row single country table whose rows score above the threshold
against each other under simW. -/
def dbW : DB :=
  ⟨[{ id := 1, name := "St. Mary Hospital", itype := "hospital",
      country := "USA", state := some "NY", city := none,
      address := some "12 Elm St", website := none, latitude := none,
      longitude := none, attrs := [], last_updated := 0 },
    { id := 2, name := "St Marys Hospital", itype := "hospital",
      country := "USA", state := some "NY", city := none,
      address := some "12 Elm Street", website := none, latitude := none,
      longitude := none, attrs := [], last_updated := 0 }], 3⟩

/-- A concrete list of source outcomes where the second source raises. -/
def outcomesW : List (Except PyErr (List RawItem)) :=
  [.ok [itA], .error (.other "boom"), .ok [itB]]

/-- A table holding one USA institution last updated at day 25. -/
def dbFresh : DB :=
  ⟨[{ id := 1, name := "Alpha Hospital", itype := "hospital",
      country := "USA", state := some "NY", city := none, address := none,
      website := none, latitude := none, longitude := none, attrs := [],
      last_updated := 25 }], 2⟩

/-! ## Lemmas about the string cleaning -/

theorem dropWhile_ws_head (l : List Char) (c : Char) (rest : List Char)
    (h : l.dropWhile Char.isWhitespace = c :: rest) : c.isWhitespace = false := by
  induction l with
  | nil => simp at h
  | cons d t ih =>
    by_cases hd : d.isWhitespace
    · rw [List.dropWhile_cons_of_pos hd] at h
      exact ih h
    · rw [List.dropWhile_cons_of_neg hd] at h
      cases h
      exact Bool.eq_false_iff.mpr hd

theorem dropWhile_ws_idem (l : List Char) :
    (l.dropWhile Char.isWhitespace).dropWhile Char.isWhitespace =
      l.dropWhile Char.isWhitespace := by
  cases h : l.dropWhile Char.isWhitespace with
  | nil => simp
  | cons c rest =>
    have hc : c.isWhitespace = false := dropWhile_ws_head l c rest h
    rw [List.dropWhile_cons_of_neg (by simp [hc])]

theorem exists_dropWhile_decomp (l : List Char) :
    ∃ t, l = t ++ l.dropWhile Char.isWhitespace := by
  induction l with
  | nil => exact ⟨[], rfl⟩
  | cons c rest ih =>
    by_cases hc : c.isWhitespace
    · obtain ⟨t, ht⟩ := ih
      exact ⟨c :: t, by rw [List.dropWhile_cons_of_pos hc]; simpa using ht⟩
    · exact ⟨[], by rw [List.dropWhile_cons_of_neg hc]; rfl⟩

theorem exists_dropTrail_decomp (l : List Char) :
    ∃ t, l = dropTrailWs l ++ t := by
  obtain ⟨t, ht⟩ := exists_dropWhile_decomp l.reverse
  refine ⟨t.reverse, ?_⟩
  have := congrArg List.reverse ht
  simpa [dropTrailWs] using this

theorem dropTrail_ws_idem (l : List Char) :
    dropTrailWs (dropTrailWs l) = dropTrailWs l := by
  simp [dropTrailWs, dropWhile_ws_idem]

theorem dropWhile_dropTrail_fixed (d : List Char)
    (hd : d.dropWhile Char.isWhitespace = d) :
    (dropTrailWs d).dropWhile Char.isWhitespace = dropTrailWs d := by
  cases hk : dropTrailWs d with
  | nil => simp
  | cons c rest =>
    obtain ⟨t, ht⟩ := exists_dropTrail_decomp d
    rw [hk] at ht
    have hc : c.isWhitespace = false := by
      apply dropWhile_ws_head d c (rest ++ t)
      rw [hd, ht]
      simp
    rw [List.dropWhile_cons_of_neg (by simp [hc])]

theorem pyStripL_idem (l : List Char) : pyStripL (pyStripL l) = pyStripL l := by
  unfold pyStripL dropLeadWs
  rw [dropWhile_dropTrail_fixed (l.dropWhile Char.isWhitespace)
    (dropWhile_ws_idem l), dropTrail_ws_idem]

theorem pyStrip_idem (s : String) : pyStrip (pyStrip s) = pyStrip s := by
  simp [pyStrip, pyStripL_idem]

theorem headNotWs_collapse_true (l : List Char) :
    headNotWs (collapseWsAux true l) = true := by
  induction l with
  | nil => rfl
  | cons c rest ih =>
    by_cases hc : c.isWhitespace
    · simpa [collapseWsAux, hc] using ih
    · simp [collapseWsAux, hc, headNotWs]

theorem goodB_collapse (b : Bool) (l : List Char) :
    goodB (collapseWsAux b l) = true := by
  induction l generalizing b with
  | nil => cases b <;> rfl
  | cons c rest ih =>
    by_cases hc : c.isWhitespace
    · cases b with
      | true => simpa [collapseWsAux, hc] using ih true
      | false =>
        simp only [collapseWsAux, hc, if_pos]
        simp [goodB, headNotWs_collapse_true, ih true]
    · simp [collapseWsAux, hc, goodB, ih false]

theorem goodB_of_append_left (a t : List Char) (h : goodB (a ++ t) = true) :
    goodB a = true := by
  induction a with
  | nil => rfl
  | cons c a' ih =>
    rw [List.cons_append] at h
    simp only [goodB, Bool.and_eq_true] at h ⊢
    refine ⟨?_, ih h.2⟩
    by_cases hc : c.isWhitespace
    · simp only [if_pos hc, Bool.and_eq_true] at h ⊢
      refine ⟨h.1.1, ?_⟩
      cases a' with
      | nil => rfl
      | cons d r => simpa [headNotWs] using h.1.2
    · simp [hc]

theorem goodB_dropWhile_ws (l : List Char) (h : goodB l = true) :
    goodB (l.dropWhile Char.isWhitespace) = true := by
  induction l with
  | nil => simpa using h
  | cons c rest ih =>
    by_cases hc : c.isWhitespace
    · rw [List.dropWhile_cons_of_pos hc]
      simp only [goodB, Bool.and_eq_true] at h
      exact ih h.2
    · rwa [List.dropWhile_cons_of_neg hc]

theorem goodB_pyStripL (l : List Char) (h : goodB l = true) :
    goodB (pyStripL l) = true := by
  unfold pyStripL dropLeadWs
  obtain ⟨t, ht⟩ := exists_dropTrail_decomp (l.dropWhile Char.isWhitespace)
  apply goodB_of_append_left _ t
  rw [← ht]
  exact goodB_dropWhile_ws l h

theorem collapse_fixed (l : List Char) (h : goodB l = true) :
    collapseWsAux false l = l := by
  induction l with
  | nil => rfl
  | cons c rest ih =>
    simp only [goodB, Bool.and_eq_true] at h
    by_cases hc : c.isWhitespace
    · simp only [if_pos hc, Bool.and_eq_true] at h
      obtain ⟨⟨hsp, hhead⟩, hrest⟩ := h
      have htail : collapseWsAux true rest = rest := by
        cases rest with
        | nil => rfl
        | cons d r =>
          have hd : d.isWhitespace = false := by
            simpa [headNotWs] using hhead
          have hrec := ih hrest
          simp only [collapseWsAux, hd] at hrec ⊢
          simpa using hrec
      have hcsp : c = ' ' := by simpa using hsp
      simp [collapseWsAux, hc, htail, hcsp]
    · simp only [if_neg hc] at h
      simp [collapseWsAux, hc, ih h.2]

theorem usaNameClean_idem (s : String) :
    usaNameClean (usaNameClean s) = usaNameClean s := by
  have h1 : goodB (collapseWsAux false s.data) = true := goodB_collapse false s.data
  have h2 : goodB (pyStripL (collapseWsAux false s.data)) = true :=
    goodB_pyStripL _ h1
  show pyStrip (collapseWs (pyStrip (collapseWs s))) = pyStrip (collapseWs s)
  simp only [pyStrip, collapseWs]
  congr 1
  rw [collapse_fixed _ h2, pyStripL_idem]

/-! ## Lemmas about the normalizers -/

theorem usaNormState_idem (v : Option String) :
    usaNormState (usaNormState v) = usaNormState v := by
  cases v with
  | none => rfl
  | some s =>
    by_cases hs : s.isEmpty
    · simp [usaNormState, optStrTruthy, hs]
    · simp only [usaNormState, optStrTruthy, hs, Bool.not_false, if_pos,
        Option.map_some]
      by_cases h2 : (pyStrip s).isEmpty
      · simp [optStrTruthy, h2]
      · simp [optStrTruthy, h2, pyStrip_idem]

theorem usaNormName_idem (v : Option String) :
    usaNormName (usaNormName v) = usaNormName v := by
  cases v with
  | none => rfl
  | some s =>
    by_cases hs : s.isEmpty
    · simp [usaNormName, optStrTruthy, hs]
    · simp only [usaNormName, optStrTruthy, hs, Bool.not_false, if_pos,
        Option.map_some]
      by_cases h2 : (usaNameClean s).isEmpty
      · simp [optStrTruthy, h2]
      · simp [optStrTruthy, h2, usaNameClean_idem]

theorem usaCoerceCoord_idem (v : Option Scalar) :
    usaCoerceCoord (usaCoerceCoord v) = usaCoerceCoord v := by
  cases v with
  | none => rfl
  | some sc =>
    by_cases ht : scalarOptTruthy (some sc)
    · simp only [usaCoerceCoord, if_pos ht]
      cases hf : floatOfScalar sc with
      | none => simp [hf, usaCoerceCoord, scalarOptTruthy]
      | some q =>
        by_cases hq : q = 0
        · subst hq
          simp [hf, usaCoerceCoord, scalarOptTruthy]
        · simp [hf, usaCoerceCoord, scalarOptTruthy, hq, floatOfScalar]
    · simp [usaCoerceCoord, if_neg ht]

theorem usaNormalizeItem_idem (it : RawItem) :
    usaNormalizeItem (usaNormalizeItem it) = usaNormalizeItem it := by
  cases it
  simp [usaNormalizeItem, usaNormState_idem, usaNormName_idem,
    usaCoerceCoord_idem]

theorem usaNormalize_idem (data : List RawItem) :
    usaNormalize (usaNormalize data) = usaNormalize data := by
  unfold usaNormalize
  rw [List.map_map]
  exact List.map_congr_left fun it _ => usaNormalizeItem_idem it

/-! ## Lemmas about insertion and deduplication -/

theorem mkRow_id (c : String) (i : Nat) (it : RawItem) (now : Int) :
    (mkRow c i it now).id = i := rfl

theorem mkRow_country (c : String) (i : Nat) (it : RawItem) (now : Int) :
    (mkRow c i it now).country = c := rfl

theorem simKey_mkRow (c : String) (i : Nat) (it : RawItem) (now : Int) :
    simKey (mkRow c i it now) = itemKey it := rfl

theorem insertToDb_eq (c : String) (items : List RawItem) (db : DB) (now : Int) :
    insertToDb c items db now =
      (⟨db.rows ++ rowsFrom c (items.filter insertOk) db.nextId now,
        db.nextId + (items.filter insertOk).length⟩,
        (items.filter insertOk).length) := by
  induction items generalizing db with
  | nil =>
    cases db
    simp [insertToDb, rowsFrom]
  | cons it rest ih =>
    by_cases hok : insertOk it
    · simp only [insertToDb, if_pos hok, ih, List.filter_cons_of_pos hok,
        rowsFrom, Prod.mk.injEq, DB.mk.injEq]
      refine ⟨⟨by simp [List.append_assoc], by simp [List.length_cons]; omega⟩,
        rfl⟩
    · simp only [insertToDb, if_neg hok, ih,
        List.filter_cons_of_neg (by simpa using hok)]

theorem rowsFrom_country (c : String) (items : List RawItem) (s : Nat)
    (now : Int) : ∀ r ∈ rowsFrom c items s now, r.country = c := by
  induction items generalizing s with
  | nil => simp [rowsFrom]
  | cons it rest ih =>
    intro r hr
    rcases List.mem_cons.mp hr with h | h
    · rw [h]
      rfl
    · exact ih (s + 1) r h

theorem rowsFrom_id_bounds (c : String) (items : List RawItem) (s : Nat)
    (now : Int) :
    ∀ r ∈ rowsFrom c items s now, s ≤ r.id ∧ r.id < s + items.length := by
  induction items generalizing s with
  | nil => simp [rowsFrom]
  | cons it rest ih =>
    intro r hr
    rcases List.mem_cons.mp hr with h | h
    · rw [h]
      simp [mkRow_id]
    · have := ih (s + 1) r h
      constructor
      · omega
      · simpa [Nat.add_comm, Nat.add_assoc, Nat.add_left_comm] using this.2

theorem mem_rowsFrom (c : String) (items : List RawItem) (s : Nat) (now : Int)
    (r : Row) :
    r ∈ rowsFrom c items s now ↔
      ∃ k, ∃ h : k < items.length, r = mkRow c (s + k) (items.get ⟨k, h⟩) now := by
  induction items generalizing s with
  | nil => simp [rowsFrom]
  | cons it rest ih =>
    simp only [rowsFrom, List.mem_cons]
    constructor
    · rintro (h | h)
      · exact ⟨0, by simp, by simpa using h⟩
      · obtain ⟨k, hk, hr⟩ := (ih (s + 1)).mp h
        refine ⟨k + 1, by simpa using hk, ?_⟩
        rw [hr]
        have : s + 1 + k = s + (k + 1) := by omega
        rw [this]
        rfl
    · rintro ⟨k, hk, hr⟩
      cases k with
      | zero =>
        left
        simpa using hr
      | succ j =>
        right
        apply (ih (s + 1)).mpr
        refine ⟨j, by simpa using hk, ?_⟩
        rw [hr]
        have : s + 1 + j = s + (j + 1) := by omega
        rw [this]
        rfl

theorem idInj_of_sub (L L' : List Row) (hsub : ∀ x ∈ L', x ∈ L)
    (hinj : idInj L) : idInj L' :=
  fun a ha b hb hab => hinj a (hsub a ha) b (hsub b hb) hab

theorem rowsFrom_idInj (c : String) (items : List RawItem) (s : Nat)
    (now : Int) : idInj (rowsFrom c items s now) := by
  intro a ha b hb hab
  obtain ⟨k, hk, hra⟩ := (mem_rowsFrom c items s now a).mp ha
  obtain ⟨j, hj, hrb⟩ := (mem_rowsFrom c items s now b).mp hb
  have hk' : a.id = s + k := by rw [hra]; rfl
  have hj' : b.id = s + j := by rw [hrb]; rfl
  have : k = j := by omega
  subst this
  rw [hra, hrb]

theorem idInj_append (L1 L2 : List Row) (h1 : idInj L1) (h2 : idInj L2)
    (hne : ∀ a ∈ L1, ∀ b ∈ L2, a.id ≠ b.id) : idInj (L1 ++ L2) := by
  intro a ha b hb hab
  rcases List.mem_append.mp ha with ha1 | ha2 <;>
    rcases List.mem_append.mp hb with hb1 | hb2
  · exact h1 a ha1 b hb1 hab
  · exact absurd hab (hne a ha1 b hb2)
  · exact absurd hab.symm (hne b hb1 a ha2)
  · exact h2 a ha2 b hb2 hab

theorem rowMarked_iff (sim : String → String → Nat) (E : List Row) (r2 : Row) :
    rowMarked sim E r2 = true ↔
      ∃ r1 ∈ E, r1.id < r2.id ∧ 90 < sim (simKey r1) (simKey r2) := by
  simp [rowMarked, List.any_eq_true]

theorem rowMarked_false_iff (sim : String → String → Nat) (E : List Row)
    (r2 : Row) :
    rowMarked sim E r2 = false ↔
      ∀ r1 ∈ E, r1.id < r2.id → sim (simKey r1) (simKey r2) ≤ 90 := by
  constructor
  · intro h r1 h1 hlt
    by_contra hgt
    push_neg at hgt
    have : rowMarked sim E r2 = true :=
      (rowMarked_iff sim E r2).mpr ⟨r1, h1, hlt, hgt⟩
    rw [h] at this
    exact Bool.false_ne_true this
  · intro h
    cases hm : rowMarked sim E r2 with
    | false => rfl
    | true =>
      obtain ⟨r1, h1, hlt, hgt⟩ := (rowMarked_iff sim E r2).mp hm
      exact absurd hgt (not_lt.mpr (h r1 h1 hlt))

theorem contains_dup_ids (E : List Row) (p : Row → Bool)
    (hinj : idInj E) (r : Row) (hr : r ∈ E) :
    ((E.filter p).map Row.id).contains r.id = p r := by
  cases hp : p r with
  | true =>
    have hm : r.id ∈ (E.filter p).map Row.id :=
      List.mem_map_of_mem _ (List.mem_filter.mpr ⟨hr, hp⟩)
    exact List.elem_iff.mpr hm
  | false =>
    rw [← Bool.not_eq_true]
    intro hcon
    obtain ⟨x, hxm, hxid⟩ := List.mem_map.mp (List.elem_iff.mp hcon)
    obtain ⟨hxE, hxp⟩ := List.mem_filter.mp hxm
    have : x = r := hinj x hxE r hr hxid
    rw [this] at hxp
    simp [hp] at hxp

theorem dedupDb_nextId (sim : String → String → Nat) (c : String) (db : DB) :
    (dedupDb sim c db).nextId = db.nextId := rfl

theorem dedup_contains_of_other (sim : String → String → Nat) (c : String)
    (db : DB) (hinj : idInj db.rows) (r : Row) (hr : r ∈ db.rows)
    (hrc : ¬(r.country = c)) :
    (((db.rows.filter fun x => x.country == c).filter
        (rowMarked sim (db.rows.filter fun x => x.country == c))).map
          Row.id).contains r.id = false := by
  rw [← Bool.not_eq_true]
  intro hcon
  obtain ⟨x, hxm, hxid⟩ := List.mem_map.mp (List.elem_iff.mp hcon)
  obtain ⟨hxE, _⟩ := List.mem_filter.mp hxm
  obtain ⟨hxrows, hxc⟩ := List.mem_filter.mp hxE
  have : x = r := hinj x hxrows r hr hxid
  rw [this] at hxc
  exact hrc (by simpa using hxc)

theorem dedup_mem_iff (sim : String → String → Nat) (c : String) (db : DB)
    (hinj : idInj db.rows) (r : Row) :
    r ∈ (dedupDb sim c db).rows ↔
      r ∈ db.rows ∧ (r.country = c →
        rowMarked sim (db.rows.filter fun x => x.country == c) r = false) := by
  have hEinj : idInj (db.rows.filter fun x => x.country == c) :=
    idInj_of_sub _ _ (fun x hx => (List.mem_filter.mp hx).1) hinj
  unfold dedupDb
  rw [List.mem_filter]
  constructor
  · rintro ⟨hr, hb⟩
    refine ⟨hr, fun hrc => ?_⟩
    have hrE : r ∈ db.rows.filter fun x => x.country == c :=
      List.mem_filter.mpr ⟨hr, by simp [hrc]⟩
    have hcd := contains_dup_ids (db.rows.filter fun x => x.country == c)
      (rowMarked sim (db.rows.filter fun x => x.country == c)) hEinj r hrE
    rw [← hcd]
    simpa using hb
  · rintro ⟨hr, himp⟩
    refine ⟨hr, ?_⟩
    by_cases hrc : r.country = c
    · have hrE : r ∈ db.rows.filter fun x => x.country == c :=
        List.mem_filter.mpr ⟨hr, by simp [hrc]⟩
      have hcd := contains_dup_ids (db.rows.filter fun x => x.country == c)
        (rowMarked sim (db.rows.filter fun x => x.country == c)) hEinj r hrE
      rw [hcd, himp hrc]
      rfl
    · rw [dedup_contains_of_other sim c db hinj r hr hrc]
      rfl

theorem dedup_rows_single (sim : String → String → Nat) (c : String) (db : DB)
    (hc : ∀ r ∈ db.rows, r.country = c) (hinj : idInj db.rows) :
    (dedupDb sim c db).rows =
      db.rows.filter fun r => !(rowMarked sim db.rows r) := by
  unfold dedupDb
  have hE : (db.rows.filter fun r => r.country == c) = db.rows :=
    List.filter_eq_self.mpr fun r hr => by simp [hc r hr]
  rw [hE]
  apply List.filter_congr
  intro r hr
  rw [contains_dup_ids db.rows (rowMarked sim db.rows) hinj r hr]

theorem DB_eq_of (db : DB) (rows : List Row) (nid : Nat)
    (h1 : db.rows = rows) (h2 : db.nextId = nid) : db = ⟨rows, nid⟩ := by
  cases db
  cases h1
  cases h2
  rfl

/-- Re-running the duplicate scan after re-inserting fresh copies of the
same batch behind a deduplicated set removes exactly the fresh copies: a
copy of a surviving record is marked through its identical-keyed original,
a copy of a removed record is marked through the copy of whatever had
marked the original, and the surviving records stay unmarked because only
rows with smaller ids can mark a row. -/
theorem dedup_reinsert (sim : String → String → Nat)
    (h100 : ∀ str, sim str str = 100) (c : String) (B : List RawItem)
    (s : Nat) (now1 now2 : Int) (L0 R N : List Row)
    (hL0 : L0 = rowsFrom c B s now1)
    (hR : R = L0.filter fun r => !(rowMarked sim L0 r))
    (hN : N = rowsFrom c B (s + B.length) now2) :
    (R ++ N).filter (fun r => !(rowMarked sim (R ++ N) r)) = R := by
  have hRsub : ∀ r ∈ R, r ∈ L0 := by
    rw [hR]
    exact fun r hr => (List.mem_filter.mp hr).1
  have hRfalse : ∀ r ∈ R, rowMarked sim L0 r = false := by
    rw [hR]
    intro r hr
    have := (List.mem_filter.mp hr).2
    simpa using this
  have markedA : ∀ r ∈ R, rowMarked sim (R ++ N) r = false := by
    intro r hr
    rw [rowMarked_false_iff]
    intro r1 h1 hlt
    rcases List.mem_append.mp h1 with h1a | h1a
    · exact (rowMarked_false_iff sim L0 r).mp (hRfalse r hr) r1 (hRsub r1 h1a)
        hlt
    · exfalso
      rw [hN] at h1a
      have hb1 := rowsFrom_id_bounds c B (s + B.length) now2 r1 h1a
      have hb2 := rowsFrom_id_bounds c B s now1 r
        (by have h2 := hRsub r hr; rw [hL0] at h2; exact h2)
      omega
  have markedB : ∀ m ∈ N, rowMarked sim (R ++ N) m = true := by
    intro m hm
    rw [hN] at hm
    obtain ⟨k, hk, hmk⟩ := (mem_rowsFrom c B (s + B.length) now2 m).mp hm
    have hoL0 : mkRow c (s + k) (B.get ⟨k, hk⟩) now1 ∈ L0 := by
      rw [hL0]
      exact (mem_rowsFrom c B s now1 _).mpr ⟨k, hk, rfl⟩
    rw [rowMarked_iff]
    cases hmo : rowMarked sim L0 (mkRow c (s + k) (B.get ⟨k, hk⟩) now1) with
    | false =>
      have hoR : mkRow c (s + k) (B.get ⟨k, hk⟩) now1 ∈ R := by
        rw [hR]
        exact List.mem_filter.mpr ⟨hoL0, by simp only [hmo, Bool.not_false]⟩
      refine ⟨mkRow c (s + k) (B.get ⟨k, hk⟩) now1,
        List.mem_append_left _ hoR, ?_, ?_⟩
      · rw [hmk]
        simp only [mkRow_id]
        omega
      · rw [hmk]
        simp only [simKey_mkRow]
        rw [h100]
        norm_num
    | true =>
      obtain ⟨r1, h1, hlt, hgt⟩ := (rowMarked_iff sim L0 _).mp hmo
      have h1L : r1 ∈ rowsFrom c B s now1 := by rw [hL0] at h1; exact h1
      obtain ⟨j, hj, hr1⟩ := (mem_rowsFrom c B s now1 r1).mp h1L
      have hjk : j < k := by
        have e1 : r1.id = s + j := by rw [hr1]; rfl
        have e2 : (mkRow c (s + k) (B.get ⟨k, hk⟩) now1).id = s + k := rfl
        rw [e1, e2] at hlt
        omega
      have hmN2 : mkRow c (s + B.length + j) (B.get ⟨j, hj⟩) now2 ∈ N := by
        rw [hN]
        exact (mem_rowsFrom c B (s + B.length) now2 _).mpr ⟨j, hj, rfl⟩
      refine ⟨mkRow c (s + B.length + j) (B.get ⟨j, hj⟩) now2,
        List.mem_append_right _ hmN2, ?_, ?_⟩
      · rw [hmk]
        simp only [mkRow_id]
        omega
      · rw [hmk]
        simp only [simKey_mkRow]
        rw [hr1] at hgt
        simpa only [simKey_mkRow] using hgt
  have hfR : R.filter (fun r => !(rowMarked sim (R ++ N) r)) = R :=
    List.filter_eq_self.mpr fun r hr => by
      simp only [markedA r hr, Bool.not_false]
  have hfN : N.filter (fun r => !(rowMarked sim (R ++ N) r)) = [] :=
    List.filter_eq_nil_iff.mpr fun m hm => by
      simp only [markedB m hm, Bool.not_true, Bool.false_eq_true,
        not_false_eq_true]
  rw [List.filter_append, hfR, hfN, List.append_nil]

/-- Deduplicating a table that holds a deduplicated first-run set followed
by freshly re-inserted copies of the same batch leaves exactly the first-run
set. -/
theorem dedup_insert_round (sim : String → String → Nat)
    (h100 : ∀ str, sim str str = 100) (c : String) (B : List RawItem)
    (s : Nat) (now1 now2 : Int) (L0 R N : List Row) (nid : Nat)
    (hL0 : L0 = rowsFrom c B s now1)
    (hR : R = L0.filter fun r => !(rowMarked sim L0 r))
    (hN : N = rowsFrom c B (s + B.length) now2) :
    (dedupDb sim c ⟨R ++ N, nid⟩).rows = R := by
  have hc2 : ∀ r ∈ (⟨R ++ N, nid⟩ : DB).rows, r.country = c := by
    intro r hr
    rcases List.mem_append.mp hr with h | h
    · have hrl : r ∈ L0 := by rw [hR] at h; exact (List.mem_filter.mp h).1
      rw [hL0] at hrl
      exact rowsFrom_country c B s now1 r hrl
    · rw [hN] at h
      exact rowsFrom_country c B (s + B.length) now2 r h
  have hinj2 : idInj (⟨R ++ N, nid⟩ : DB).rows := by
    apply idInj_append
    · apply idInj_of_sub L0
      · intro x hx
        rw [hR] at hx
        exact (List.mem_filter.mp hx).1
      · rw [hL0]
        exact rowsFrom_idInj c B s now1
    · rw [hN]
      exact rowsFrom_idInj c B (s + B.length) now2
    · intro a ha b hb
      have hal : a ∈ L0 := by rw [hR] at ha; exact (List.mem_filter.mp ha).1
      rw [hL0] at hal
      have hba := rowsFrom_id_bounds c B s now1 a hal
      have hbb := rowsFrom_id_bounds c B (s + B.length) now2 b
        (by rw [hN] at hb; exact hb)
      omega
  rw [dedup_rows_single sim c ⟨R ++ N, nid⟩ hc2 hinj2]
  exact dedup_reinsert sim h100 c B s now1 now2 L0 R N hL0 hR hN

/-- Running insert plus dedup twice over the same batch from an empty table
yields, after the second round, exactly the rows of the first round. -/
theorem ingest_twice (sim : String → String → Nat)
    (h100 : ∀ str, sim str str = 100) (c : String) (batch : List RawItem)
    (now1 now2 : Int) :
    (ingest sim c batch (ingest sim c batch emptyDB now1) now2).rows =
      (ingest sim c batch emptyDB now1).rows := by
  have hL0def : (insertToDb c batch emptyDB now1).1 =
      ⟨rowsFrom c (batch.filter insertOk) 1 now1,
        1 + (batch.filter insertOk).length⟩ := by
    rw [insertToDb_eq]
    rfl
  have hdb1 : ingest sim c batch emptyDB now1 =
      ⟨(rowsFrom c (batch.filter insertOk) 1 now1).filter
          (fun r => !(rowMarked sim
            (rowsFrom c (batch.filter insertOk) 1 now1) r)),
        1 + (batch.filter insertOk).length⟩ := by
    unfold ingest
    rw [hL0def]
    refine DB_eq_of _ _ _ ?_ rfl
    exact dedup_rows_single sim c
      ⟨rowsFrom c (batch.filter insertOk) 1 now1,
        1 + (batch.filter insertOk).length⟩
      (rowsFrom_country c (batch.filter insertOk) 1 now1)
      (rowsFrom_idInj c (batch.filter insertOk) 1 now1)
  rw [hdb1]
  unfold ingest
  have hins2 : (insertToDb c batch
      ⟨(rowsFrom c (batch.filter insertOk) 1 now1).filter
          (fun r => !(rowMarked sim
            (rowsFrom c (batch.filter insertOk) 1 now1) r)),
        1 + (batch.filter insertOk).length⟩ now2).1 =
      ⟨(rowsFrom c (batch.filter insertOk) 1 now1).filter
          (fun r => !(rowMarked sim
            (rowsFrom c (batch.filter insertOk) 1 now1) r)) ++
        rowsFrom c (batch.filter insertOk)
          (1 + (batch.filter insertOk).length) now2,
        1 + (batch.filter insertOk).length + (batch.filter insertOk).length⟩ := by
    rw [insertToDb_eq]
  rw [hins2]
  exact dedup_insert_round sim h100 c (batch.filter insertOk) 1 now1 now2
    (rowsFrom c (batch.filter insertOk) 1 now1) _ _ _ rfl rfl rfl

/-! ## Lemmas about the freshness check, the retry loop, the aggregation
and the batch loop -/

theorem listMax_eq_none (l : List Int) : listMax l = none ↔ l = [] := by
  cases l with
  | nil => simp [listMax]
  | cons x rest =>
    simp only [listMax]
    cases listMax rest <;> simp

theorem listMax_mem (l : List Int) (m : Int) (h : listMax l = some m) :
    m ∈ l := by
  induction l generalizing m with
  | nil => simp [listMax] at h
  | cons x rest ih =>
    simp only [listMax] at h
    cases hr : listMax rest with
    | none =>
      rw [hr] at h
      cases h
      simp
    | some m2 =>
      rw [hr] at h
      cases h
      rcases max_choice x m2 with hm | hm
      · rw [hm]
        simp
      · rw [hm]
        exact List.mem_cons_of_mem x (ih m2 hr)

theorem listMax_le (l : List Int) (m : Int) (h : listMax l = some m) :
    ∀ x ∈ l, x ≤ m := by
  induction l generalizing m with
  | nil => simp
  | cons y rest ih =>
    intro x hx
    simp only [listMax] at h
    cases hr : listMax rest with
    | none =>
      rw [hr] at h
      cases h
      have hrest : rest = [] := (listMax_eq_none rest).mp hr
      subst hrest
      simp at hx
      rw [hx]
    | some m2 =>
      rw [hr] at h
      cases h
      rcases List.mem_cons.mp hx with h1 | h1
      · rw [h1]
        exact le_max_left y m2
      · exact le_trans (ih m2 hr x h1) (le_max_right y m2)

theorem retryLoop_fail (attempt backoff remaining : Nat) :
    retryLoop (fun _ => none) attempt backoff remaining =
      (none, remaining,
        (List.range (remaining - 1)).map fun i => backoff * 2 ^ i) := by
  induction remaining generalizing attempt backoff with
  | zero => simp [retryLoop]
  | succ k ih =>
    simp only [retryLoop]
    cases k with
    | zero => simp
    | succ k2 =>
      rw [if_neg (by omega)]
      rw [ih (attempt + 1) (backoff * 2)]
      simp only [Nat.succ_sub_one, Prod.mk.injEq, true_and]
      rw [List.range_succ_eq_map]
      simp only [List.map_cons, List.map_map]
      refine congrArg₂ List.cons (by simp) ?_
      refine List.map_congr_left fun i _ => ?_
      simp only [Function.comp]
      rw [pow_succ]
      ring

theorem flatten_part {α : Type} (L : List (List α)) (j : Nat)
    (h : j < L.length) :
    ∃ pre post, L.flatten = pre ++ L.get ⟨j, h⟩ ++ post := by
  induction L generalizing j with
  | nil => simp at h
  | cons x xs ih =>
    cases j with
    | zero => exact ⟨[], xs.flatten, by simp⟩
    | succ i =>
      obtain ⟨pre, post, hpp⟩ := ih i (by simpa using h)
      refine ⟨x ++ pre, post, ?_⟩
      rw [List.flatten_cons, hpp]
      simp [List.append_assoc]

theorem mainBatch_eq (known : String → Bool) (cs : List String) :
    mainBatch known cs =
      (cs.takeWhile known, firstUnknownLog known cs,
        if cs.all known then none else some 1) := by
  induction cs with
  | nil => simp [mainBatch, firstUnknownLog]
  | cons c rest ih =>
    by_cases hc : known c
    · simp [mainBatch, hc, ih, firstUnknownLog, List.takeWhile_cons,
        List.dropWhile_cons, List.all_cons]
    · simp [mainBatch, hc, firstUnknownLog, List.takeWhile_cons,
        List.dropWhile_cons, List.all_cons]

theorem simW_symm (a b : String) : simW a b = simW b a := by
  unfold simW
  rcases eq_or_ne a b with h | h
  · subst h
    rfl
  · rw [if_neg (by simpa using h), if_neg (by simpa using h.symm)]

theorem simEq_hundred (str : String) : simEq str str = 100 := by
  simp [simEq]

/-! ## Claim theorems -/

/-- C1 counterexample: the claim as stated fails on the code. After one
full pipeline pass over a one-record batch, a record with the same natural
key (country USA, name Alpha Hospital) is present in the table, yet the
second run's insert step still inserts it again (one new row, counted as
one insert, not zero): the institutions schema created by
setup_db.create_tables has no unique constraint on (country, name), so
ON CONFLICT DO NOTHING never suppresses an insert. -/
theorem claim1_counterexample :
    (ingest simEq "USA" [itA] emptyDB 0).rows.length = 1 ∧
    (∃ r ∈ (ingest simEq "USA" [itA] emptyDB 0).rows,
      r.country = "USA" ∧ r.name = "Alpha Hospital") ∧
    (insertToDb "USA" [itA] (ingest simEq "USA" [itA] emptyDB 0) 1).2 = 1 ∧
    (insertToDb "USA" [itA]
      (ingest simEq "USA" [itA] emptyDB 0) 1).1.rows.length = 2 := by
  decide

/-- C1 (amended): running the full pipeline (insert then dedup) twice from
an empty table with identical adapter outputs yields the same final rows
and hence the same final record count, but not through insert-or-ignore:
the second run inserts one row per insertable record (not zero), and the
re-inserted higher-id copies are then all removed again by the
deduplication pass, which keeps the lower-id originals. The similarity
measure is any function scoring identical strings at 100. -/
theorem claim1_theorem (sim : String → String → Nat)
    (h100 : ∀ str, sim str str = 100) (c : String) (batch : List RawItem)
    (now1 now2 : Int) :
    (ingest sim c batch (ingest sim c batch emptyDB now1) now2).rows =
      (ingest sim c batch emptyDB now1).rows ∧
    (insertToDb c batch (ingest sim c batch emptyDB now1) now2).2 =
      (batch.filter insertOk).length :=
  ⟨ingest_twice sim h100 c batch now1 now2, by rw [insertToDb_eq]⟩

theorem claim1_witness :
    (∀ str, simEq str str = 100) ∧
    ((ingest simEq "USA" [itA, itB]
        (ingest simEq "USA" [itA, itB] emptyDB 0) 5).rows =
      (ingest simEq "USA" [itA, itB] emptyDB 0).rows ∧
    (insertToDb "USA" [itA, itB]
        (ingest simEq "USA" [itA, itB] emptyDB 0) 5).2 =
      ([itA, itB].filter insertOk).length) :=
  ⟨simEq_hundred, claim1_theorem simEq simEq_hundred "USA" [itA, itB] 0 5⟩

/-- C5 counterexample: the claim as stated fails on the code. With a row
whose natural key (USA, Alpha Hospital) is already present, re-inserting
the same record is counted (the logged inserted count is 1, not 0) and the
row is appended rather than left untouched; moreover the Python method
only logs this count and returns None. -/
theorem claim5_counterexample :
    (∃ r ∈ (insertToDb "USA" [itA] emptyDB 0).1.rows,
      r.country = "USA" ∧ r.name = "Alpha Hospital") ∧
    (insertToDb "USA" [itA] (insertToDb "USA" [itA] emptyDB 0).1 1).2 = 1 ∧
    (insertToDb "USA" [itA]
        (insertToDb "USA" [itA] emptyDB 0).1 1).1.rows.length =
      (insertToDb "USA" [itA] emptyDB 0).1.rows.length + 1 := by
  decide

/-- C5 (amended): the persistence step counts exactly the records whose
insert statement executes without raising (the NOT NULL columns name and
type are present) and it writes exactly those records, appending one row
each; a per-record failure is skipped without aborting the rest of the
batch and is not counted; the count is logged, not returned. Since the
schema has no unique constraint on the natural key, no record is ever left
untouched by a conflict, so the count also equals the rows written. -/
theorem claim5_theorem (c : String) (items : List RawItem) (db : DB)
    (now : Int) :
    (insertToDb c items db now).1.rows =
      db.rows ++ rowsFrom c (items.filter insertOk) db.nextId now ∧
    (insertToDb c items db now).2 = (items.filter insertOk).length ∧
    (insertToDb c items db now).1.nextId =
      db.nextId + (items.filter insertOk).length := by
  rw [insertToDb_eq]
  exact ⟨rfl, rfl, rfl⟩

/-- C9 counterexample: the claim as stated fails on the code. The IND and
CHN normalizers are not idempotent: on a record whose name is the string
with characters bracket e d bracket e d i t bracket-close i t
bracket-close, removing the inner edit tag produces a fresh edit tag, so a
second normalization pass changes the record again. -/
theorem claim9_counterexample :
    indNormalize (indNormalize [indBad]) ≠ indNormalize [indBad] ∧
    chnNormalize (chnNormalize [indBad]) ≠ chnNormalize [indBad] := by
  decide

/-- C9 (amended): the USA and CAN normalizers are idempotent: normalizing
an already-normalized batch yields the same batch. (The IND and CHN
normalizers are not, per the counterexample.) -/
theorem claim9_theorem :
    (∀ data, usaNormalize (usaNormalize data) = usaNormalize data) ∧
    (∀ data, canNormalize (canNormalize data) = canNormalize data) :=
  ⟨usaNormalize_idem, fun _ => rfl⟩

/-- C2 counterexample: the claim as stated fails on the code. In the batch
USA, ZZZ, CAN the unknown country ZZZ is reported, but the loop then calls
sys.exit(1), so CAN - a registered country later in the same batch - is
never processed. -/
theorem claim2_counterexample :
    mainBatch registryKnown ["USA", "ZZZ", "CAN"] =
      (["USA"], ["Unknown country: ZZZ"], some 1) ∧
    registryKnown "CAN" = true ∧
    "CAN" ∉ (mainBatch registryKnown ["USA", "ZZZ", "CAN"]).1 := by
  decide

/-- C2 (amended): an unknown country code is reported as a configuration
error, but the main entry point then aborts the whole process with exit
code 1: exactly the countries before the first unknown code are processed
and everything after it is skipped; only when every requested country is
known does the loop complete without exiting. The run_extraction entry
point instead filters the requested list, so there every known country of
the batch is still processed. -/
theorem claim2_theorem (known : String → Bool) (cs : List String) :
    mainBatch known cs =
      (cs.takeWhile known, firstUnknownLog known cs,
        if cs.all known then none else some 1) ∧
    (∀ c ∈ cs, known c = true → c ∈ runExtractionValid known cs) :=
  ⟨mainBatch_eq known cs, fun _ hc hk => List.mem_filter.mpr ⟨hc, hk⟩⟩

theorem claim2_witness :
    mainBatch registryKnown ["USA", "XXX", "CAN"] =
      (["USA", "XXX", "CAN"].takeWhile registryKnown,
        firstUnknownLog registryKnown ["USA", "XXX", "CAN"],
        if ["USA", "XXX", "CAN"].all registryKnown then none else some 1) ∧
    "CAN" ∈ runExtractionValid registryKnown ["USA", "XXX", "CAN"] :=
  ⟨(claim2_theorem registryKnown ["USA", "XXX", "CAN"]).1,
    (claim2_theorem registryKnown ["USA", "XXX", "CAN"]).2 "CAN" (by decide)
      (by decide)⟩

/-- C3 counterexample: the claim as stated fails on the code. A raw record
with latitude 200 keeps latitude 200.0 through USAExtractor.normalize
(which only coerces to float and has no range check) and is stored with
latitude 200.0 by insert_to_db; it is not normalized to null. -/
theorem claim3_counterexample :
    (usaNormalize [rec200]).map RawItem.latitude = [some (Scalar.f 200)] ∧
    (usaNormalize [rec200]).map RawItem.latitude ≠ [none] ∧
    (insertToDb "USA" (usaNormalize [rec200]) emptyDB 0).1.rows.map
      Row.latitude = [some (Scalar.f 200)] := by
  decide

/-- C3 (amended): the USA normalizer coerces coordinates to numbers and
nulls only failed conversions, passing numeric values through unchanged
whatever their range; the range checks nulling latitude outside
-90 to 90 and longitude outside -180 to 180 exist only in the HRSA clinic
fetcher, at fetch time. -/
theorem claim3_theorem (it : RawItem) (q : Rat) :
    (it.latitude = some (Scalar.f q) →
      (usaNormalizeItem it).latitude = some (Scalar.f q)) ∧
    ((q < -90 ∨ 90 < q) → hrsaLatValue (Scalar.f q) = none) ∧
    (-90 ≤ q → q ≤ 90 → hrsaLatValue (Scalar.f q) = some q) ∧
    ((q < -180 ∨ 180 < q) → hrsaLngValue (Scalar.f q) = none) := by
  refine ⟨?_, ?_, ?_, ?_⟩
  · intro hl
    show usaCoerceCoord it.latitude = some (Scalar.f q)
    rw [hl]
    by_cases hq : q = 0
    · subst hq
      simp [usaCoerceCoord, scalarOptTruthy]
    · simp [usaCoerceCoord, scalarOptTruthy, hq, floatOfScalar]
  · intro hq
    simp only [hrsaLatValue, floatOfScalar]
    rw [if_neg]
    rintro ⟨h1, h2⟩
    rcases hq with hq | hq
    · linarith
    · linarith
  · intro h1 h2
    simp [hrsaLatValue, floatOfScalar, h1, h2]
  · intro hq
    simp only [hrsaLngValue, floatOfScalar]
    rw [if_neg]
    rintro ⟨h1, h2⟩
    rcases hq with hq | hq
    · linarith
    · linarith

theorem claim3_witness :
    (usaNormalizeItem { rec200 with latitude := some (Scalar.f 200) }).latitude
      = some (Scalar.f 200) ∧
    hrsaLatValue (Scalar.f 200) = none ∧
    hrsaLngValue (Scalar.f 200) = none ∧
    hrsaLatValue (Scalar.f 45) = some 45 :=
  ⟨(claim3_theorem { rec200 with latitude := some (Scalar.f 200) } 200).1 rfl,
    (claim3_theorem rec200 200).2.1 (Or.inr (by norm_num)),
    (claim3_theorem rec200 200).2.2.2 (Or.inr (by norm_num)),
    (claim3_theorem rec200 45).2.2.1 (by norm_num) (by norm_num)⟩

/-- C4: deduplicate operates on the persisted set of the country: a row of
the country survives exactly when no row of the country with a smaller id
scores strictly above 90 against it (so whenever a pair scores above the
threshold, the higher id is deleted and the lower retained); afterwards no
two distinct remaining rows of the country score above 90 against each
other; rows of other countries are untouched; and the row with the
smallest id of the country always survives. The similarity measure is a
parameter, assumed symmetric as an order-independent token comparison is;
distinct rows have distinct ids as the serial primary key guarantees. -/
theorem claim4_theorem (sim : String → String → Nat)
    (hsymm : ∀ a b, sim a b = sim b a) (c : String) (db : DB)
    (hinj : idInj db.rows) :
    (∀ r ∈ db.rows.filter (fun x => x.country == c),
      (r ∈ (dedupDb sim c db).rows ↔
        ¬∃ r1 ∈ db.rows.filter (fun x => x.country == c),
          r1.id < r.id ∧ 90 < sim (simKey r1) (simKey r))) ∧
    (∀ a ∈ (dedupDb sim c db).rows, ∀ b ∈ (dedupDb sim c db).rows,
      a.country = c → b.country = c → a ≠ b →
        sim (simKey a) (simKey b) ≤ 90) ∧
    (∀ r ∈ db.rows, r.country ≠ c → r ∈ (dedupDb sim c db).rows) ∧
    (∀ r ∈ db.rows.filter (fun x => x.country == c),
      (∀ r1 ∈ db.rows.filter (fun x => x.country == c), r.id ≤ r1.id) →
        r ∈ (dedupDb sim c db).rows) := by
  refine ⟨?_, ?_, ?_, ?_⟩
  · intro r hr
    obtain ⟨hrdb, hrc0⟩ := List.mem_filter.mp hr
    have hrc : r.country = c := by simpa using hrc0
    rw [dedup_mem_iff sim c db hinj r]
    constructor
    · rintro ⟨_, himp⟩ hex
      have hfalse := himp hrc
      rw [rowMarked_false_iff] at hfalse
      obtain ⟨r1, h1, hlt, hgt⟩ := hex
      exact absurd hgt (not_lt.mpr (hfalse r1 h1 hlt))
    · intro hnex
      refine ⟨hrdb, fun _ => ?_⟩
      rw [rowMarked_false_iff]
      intro r1 h1 hlt
      by_contra hgt
      push_neg at hgt
      exact hnex ⟨r1, h1, hlt, hgt⟩
  · intro a ha b hb hac hbc hne
    have hadb : a ∈ db.rows := ((dedup_mem_iff sim c db hinj a).mp ha).1
    have hbdb : b ∈ db.rows := ((dedup_mem_iff sim c db hinj b).mp hb).1
    have hidne : a.id ≠ b.id := fun h => hne (hinj a hadb b hbdb h)
    rcases lt_or_gt_of_ne hidne with hlt | hlt
    · have himp := ((dedup_mem_iff sim c db hinj b).mp hb).2 hbc
      rw [rowMarked_false_iff] at himp
      exact himp a (List.mem_filter.mpr ⟨hadb, by simp [hac]⟩) hlt
    · have himp := ((dedup_mem_iff sim c db hinj a).mp ha).2 hac
      rw [rowMarked_false_iff] at himp
      have hba := himp b (List.mem_filter.mpr ⟨hbdb, by simp [hbc]⟩) hlt
      rw [hsymm (simKey a) (simKey b)]
      exact hba
  · intro r hr hrc
    rw [dedup_mem_iff sim c db hinj r]
    exact ⟨hr, fun h => absurd h hrc⟩
  · intro r hr hmin
    obtain ⟨hrdb, _⟩ := List.mem_filter.mp hr
    rw [dedup_mem_iff sim c db hinj r]
    refine ⟨hrdb, fun _ => ?_⟩
    rw [rowMarked_false_iff]
    intro r1 h1 hlt
    exfalso
    have := hmin r1 h1
    omega

theorem claim4_witness :
    idInj dbW.rows ∧
    (∀ r ∈ dbW.rows.filter (fun x => x.country == "USA"),
      (∀ r1 ∈ dbW.rows.filter (fun x => x.country == "USA"), r.id ≤ r1.id) →
        r ∈ (dedupDb simW "USA" dbW).rows) ∧
    (∀ a ∈ (dedupDb simW "USA" dbW).rows, ∀ b ∈ (dedupDb simW "USA" dbW).rows,
      a.country = "USA" → b.country = "USA" → a ≠ b →
        simW (simKey a) (simKey b) ≤ 90) :=
  ⟨by decide,
    (claim4_theorem simW simW_symm "USA" dbW (by decide)).2.2.2,
    (claim4_theorem simW simW_symm "USA" dbW (by decide)).2.1⟩

/-- C6: against a source whose every attempt fails, get_with_retry makes
exactly retries attempts, sleeps after each failed attempt except the last
with the backoff doubling each time (the sleep list is backoffFactor times
successive powers of two, of length retries minus one), and returns None;
and a caller such as fetch_vet_nifa treats that None as no data, producing
the empty list rather than an error. -/
theorem claim6_theorem (retries backoffFactor : Nat) :
    getWithRetry retries backoffFactor (fun _ => none) =
      (none, retries,
        (List.range (retries - 1)).map fun i => backoffFactor * 2 ^ i) ∧
    (∀ parse, fetchVetNifa (fun _ => none) parse = []) := by
  refine ⟨retryLoop_fail 0 backoffFactor retries, fun parse => ?_⟩
  unfold fetchVetNifa getWithRetry
  rw [retryLoop_fail 0 1 3]

/-- C7: the staleness check is true exactly when either no institution of
the country exists, or the greatest last_updated among them is more than
refreshDays before now; and when force is false and the check is false,
run performs no fetch, no normalization, no insertion and no
deduplication: it returns the skipped outcome with an empty operation
trace and an unchanged database. -/
theorem claim7_theorem (sim : String → String → Nat) (c : String)
    (normalizeFn : List RawItem → List RawItem)
    (fetched : Except PyErr (List RawItem)) (days now : Int) (st : ExtState)
    (db : DB) :
    (needsRefresh c days now db = true ↔
      ((∀ r ∈ db.rows, ¬(r.country = c)) ∨
        (∃ m,
          (m ∈ (db.rows.filter (fun r => r.country == c)).map
              Row.last_updated ∧
            ∀ x ∈ (db.rows.filter (fun r => r.country == c)).map
              Row.last_updated, x ≤ m) ∧
          now - m > days))) ∧
    (st.curOpen = true → needsRefresh c days now db = false →
      runExtractor sim c normalizeFn fetched false days now st db =
        ⟨.ok .skipped, closedState, db, []⟩) := by
  constructor
  · cases hl : listMax ((db.rows.filter (fun r => r.country == c)).map
        Row.last_updated) with
    | none =>
      have hnil := (listMax_eq_none _).mp hl
      have hfil : db.rows.filter (fun r => r.country == c) = [] := by
        simpa using hnil
      constructor
      · intro _
        left
        intro r hr hrc
        have hmem : r ∈ db.rows.filter (fun r => r.country == c) :=
          List.mem_filter.mpr ⟨hr, by simp [hrc]⟩
        rw [hfil] at hmem
        simp at hmem
      · intro _
        simp [needsRefresh, hl]
    | some m0 =>
      have hmem := listMax_mem _ m0 hl
      have hle := listMax_le _ m0 hl
      constructor
      · intro htrue
        right
        refine ⟨m0, ⟨hmem, hle⟩, ?_⟩
        have hdec : decide (now - m0 > days) = true := by
          simpa [needsRefresh, hl] using htrue
        exact of_decide_eq_true hdec
      · intro h
        rcases h with h | ⟨m, ⟨hm, hmax⟩, hgt⟩
        · exfalso
          obtain ⟨r, hrf, _⟩ := List.mem_map.mp hmem
          obtain ⟨hrdb, hrc⟩ := List.mem_filter.mp hrf
          exact h r hrdb (by simpa using hrc)
        · have hm0 : m = m0 := le_antisymm (hle m hm) (hmax m0 hmem)
          subst hm0
          simp only [needsRefresh, hl, decide_eq_true_eq]
          exact hgt
  · intro hcur hfalse
    simp [runExtractor, hcur, hfalse]

theorem claim7_witness :
    needsRefresh "USA" 30 30 dbFresh = false ∧
    runExtractor simW "USA" usaNormalize (.ok []) false 30 30 openState
        dbFresh = ⟨.ok .skipped, closedState, dbFresh, []⟩ :=
  ⟨by decide,
    (claim7_theorem simW "USA" usaNormalize (.ok []) 30 30 openState
      dbFresh).2 rfl (by decide)⟩

/-- C8: when the i-th source fetcher raises internally, its caught outcome
contributes the empty list, and the aggregated fetch still contains the
contribution of every other source fetcher as a contiguous segment. -/
theorem claim8_theorem (outcomes : List (Except PyErr (List RawItem)))
    (i j : Nat) (e : PyErr) (hi : outcomes.get? i = some (.error e))
    (hj : j < outcomes.length) (_hne : j ≠ i) :
    handleSource (.error e) = [] ∧
    (∃ hi2 : i < outcomes.length,
      handleSource (outcomes.get ⟨i, hi2⟩) = []) ∧
    (∃ pre post, fetchDataAgg outcomes =
      pre ++ handleSource (outcomes.get ⟨j, hj⟩) ++ post) := by
  obtain ⟨hlt, hget⟩ := List.get?_eq_some.mp hi
  refine ⟨rfl, ⟨hlt, by rw [hget]; rfl⟩, ?_⟩
  unfold fetchDataAgg
  obtain ⟨pre, post, hpp⟩ :=
    flatten_part (outcomes.map handleSource) j (by simpa using hj)
  have hmap : (outcomes.map handleSource).get ⟨j, by simpa using hj⟩ =
      handleSource (outcomes.get ⟨j, hj⟩) := by
    simp
  rw [hmap] at hpp
  exact ⟨pre, post, hpp⟩

theorem claim8_witness :
    handleSource (.error (.other "boom")) = [] ∧
    (∃ hi2 : 1 < outcomesW.length,
      handleSource (outcomesW.get ⟨1, hi2⟩) = []) ∧
    (∃ pre post, fetchDataAgg outcomesW =
      pre ++ handleSource (outcomesW.get ⟨2, by decide⟩) ++ post) :=
  claim8_theorem outcomesW 1 2 (.other "boom") rfl (by decide) (by decide)

/-- C10: every invocation of run leaves the cursor and the connection
closed, on the refreshed, skipped and error paths alike; consequently a
run on an instance whose cursor is already closed raises and leaves the
database untouched, so one extractor instance supports at most one
effective run. -/
theorem claim10_theorem (sim : String → String → Nat) (c : String)
    (normalizeFn : List RawItem → List RawItem)
    (fetched : Except PyErr (List RawItem)) (force : Bool) (days now : Int)
    (st : ExtState) (db : DB) :
    (runExtractor sim c normalizeFn fetched force days now st db).finalSt =
      closedState ∧
    (st.curOpen = false →
      (∃ e, (runExtractor sim c normalizeFn fetched force days now
        st db).res = Except.error e) ∧
      (runExtractor sim c normalizeFn fetched force days now st db).db =
        db) := by
  constructor
  · rcases fetched with e | data <;> cases force <;>
      cases hst : st.curOpen <;>
      cases hnr : needsRefresh c days now db <;>
      simp [runExtractor, hst, hnr]
  · intro hclosed
    cases force with
    | false =>
      rcases fetched with e | data <;> simp [runExtractor, hclosed]
    | true =>
      rcases fetched with e | data <;> simp [runExtractor, hclosed]

theorem claim10_witness :
    (runExtractor simW "USA" usaNormalize (.ok [itA]) true 30 0 closedState
        emptyDB).finalSt = closedState ∧
    (∃ e, (runExtractor simW "USA" usaNormalize (.ok [itA]) true 30 0
        closedState emptyDB).res = Except.error e) ∧
    (runExtractor simW "USA" usaNormalize (.ok [itA]) true 30 0 closedState
        emptyDB).db = emptyDB := by
  have h := claim10_theorem simW "USA" usaNormalize (.ok [itA]) true 30 0
    closedState emptyDB
  exact ⟨h.1, (h.2 rfl).1, (h.2 rfl).2⟩

end MEDGraph
